import Mathlib

/-!
# Verification of the TAT symmetric block-sparse tensor core

Shallow embedding of `src/include/TAT/structure/tensor.hpp` (the `Tensor`
layer of the TAT library) together with the `Core`/`Edge` layer it relies
on.  `core.hpp`, `edge.hpp` and `symmetry.hpp` are not part of the source
tree that was handed to us, so the block-enumeration layer is modelled
from the specification (each such definition is marked
`Modelled from the spec:`); the behaviour pinned down by the in-tree
tests (`src/tests/test_create_fermi_tensor.cpp`) takes precedence where
it is decisive.

The symmetry group is an arbitrary linearly ordered abelian group `G`
(the spec's Abelian quantum numbers: `Z2`, `U1`, fermionic variants); the
scalar type `α` stays generic wherever the C++ template does.
-/

namespace TAT

/-- Fermionic parity predicate of a symmetry group: `parity q` is true when
the charge `q` is odd (spec glossary: "Parity — for fermionic symmetries,
the predicate `this charge is odd`").  Bosonic groups use the instance
that is constantly `false`. -/
class FermiParity (G : Type) where
  parity : G → Bool

/-- `ℤ` as the fermionic `U1` group `TAT::FermiSymmetry`: odd charges are fermionic. -/
instance : FermiParity ℤ := ⟨fun q => decide (q % 2 ≠ 0)⟩

variable {G : Type} [AddCommGroup G] [LinearOrder G]

/-- One tensor index (spec §3 "Edge"): an ordered list of
`(charge, dimension)` segments plus the fermionic arrow.  Non-fermionic
edges carry `arrow = false`. -/
structure Edge (G : Type) where
  segments : List (G × ℕ)
  arrow : Bool
deriving DecidableEq

/-- The charges of an edge's segments, in segment order. -/
def Edge.charges (e : Edge G) : List G :=
  e.segments.map Prod.fst

/-- Dimension of the segment of `e` carrying charge `q` (`0` when there is
no such segment). -/
def Edge.dimOf (e : Edge G) (q : G) : ℕ :=
  ((e.segments.find? (fun s => decide (s.1 = q))).map Prod.snd).getD 0

/-- Modelled from the spec: plain sum of the per-edge charges of a block
tuple.  The conservation law actually implemented by the absent
`core.hpp` is `Σ_k q_k = 0` with no arrow weighting: the in-tree test
`test_create_fermi_tensor.conversion_scalar` stores the block `(-2,+2)`
on edges with arrows `{true,false}`, and `Tensor::one`
(tensor.hpp:221) relies on that block existing. -/
def chargeSum : List G → G
  | [] => 0
  | q :: qs => q + chargeSum qs

/-- The signed sum `Σ_k s_k·q_k` with `s_k = -1` iff `arrow = true`, as the
spec (§3 "Block") words the conservation law.  Kept for comparison with
the implemented plain-sum law. -/
def signedSum : List (Edge G) → List G → G
  | e :: es, q :: qs => (if e.arrow then -q else q) + signedSum es qs
  | _, _ => 0

/-- Modelled from the spec (§4.2): all charge tuples of an edge list, the
Cartesian product of the per-edge segment charges, enumerated with the
first edge slowest (lexicographic over each edge's segment order). -/
def chargeTuples : List (Edge G) → List (List G)
  | [] => [[]]
  | e :: es => (e.charges.map (fun q => (chargeTuples es).map (fun t => q :: t))).flatten

/-- Modelled from the spec (§3 "Block"): the dense volume of the block at
a charge tuple, the product of the per-edge segment dimensions. -/
def volume : List (Edge G) → List G → ℕ
  | e :: es, q :: qs => e.dimOf q * volume es qs
  | _, _ => 1

/-- Translation of the comparator used by `Tensor::find_block`
(tensor.hpp:478): `std::lexicographical_compare` on two charge lists. -/
def lexLt : List G → List G → Bool
  | _, [] => false
  | [], _ :: _ => true
  | a :: as, b :: bs => if a < b then true else if b < a then false else lexLt as bs

/-- Modelled from the spec (§4.2): the conservation-allowed charge tuples
of an edge list (Cartesian product filtered by the conservation law; see
`chargeSum` for why the law is the plain sum). -/
def allowedTuples (edges : List (Edge G)) : List (List G) :=
  (chargeTuples edges).filter (fun t => decide (chargeSum t = 0))

/-- Modelled from the spec (§4.2): the allowed tuples sorted
lexicographically, the key order of the `Core`'s sorted block index. -/
def sortedTuples (edges : List (Edge G)) : List (List G) :=
  List.insertionSort (fun a b => lexLt b a = false) (allowedTuples edges)

/-- Modelled from the spec (§3 "Core"): the tensor data owned behind the
shared pointer — the edge list, the flat scalar storage, and the sorted
block index mapping each allowed charge tuple to its `(offset, volume)`
slab of the storage. -/
structure Core (G α : Type) where
  edges : List (Edge G)
  blocks : List (List G × ℕ × ℕ)
  storage : List α

/-- Attach back-to-back storage offsets to a tuple list. -/
def withOffsets (edges : List (Edge G)) : List (List G) → ℕ → List (List G × ℕ × ℕ)
  | [], _ => []
  | t :: ts, off => (t, off, volume edges t) :: withOffsets edges ts (off + volume edges t)

/-- Total storage length of an edge list: the sum of all allowed block volumes. -/
def totalVolume (edges : List (Edge G)) : ℕ :=
  ((sortedTuples edges).map (volume edges)).sum

/-- Modelled from the spec (§4.2 "Core construction", absent `core.hpp`):
enumerate the conservation-allowed tuples, sort them, lay the blocks
back-to-back and allocate one contiguous storage of the summed volumes.
The C++ storage is uninitialised; the model fills it with `default`. -/
def Core.ofEdges (α : Type) [Inhabited α] (edges : List (Edge G)) : Core G α :=
  { edges := edges
    blocks := withOffsets edges (sortedTuples edges) 0
    storage := List.replicate (totalVolume edges) default }

/-- The `Tensor` of tensor.hpp:97, at the value level: the edge names plus
the core.  (Core sharing between tensor handles is modelled separately by
`World`/`Handle` below.) -/
structure Tensor (G α : Type) where
  names : List String
  core : Core G α

/-- Nested-loop duplicate detection of `check_valid_name`
(tensor.hpp:68-75): some later entry equals an earlier one. -/
def hasDuplicate : List String → Bool
  | [] => false
  | n :: rest => rest.contains n || hasDuplicate rest

/-- Translation of `check_valid_name` (tensor.hpp:62): the name list must
have the expected length and hold no duplicate; `detail::error` is fatal
(spec §7), modelled by `Except.error`. -/
def check_valid_name (names : List String) (rank : ℕ) : Except String Unit :=
  if names.length ≠ rank then
    Except.error "Wrong name list length which no equals to expected length"
  else if hasDuplicate names then
    Except.error "Duplicated names in name list"
  else
    Except.ok ()

/-- Modelled from the spec: the `debug_mode` flag lives in the absent
utility headers; spec §7 makes argument validation eager, so the model
fixes it to `true`. -/
def debug_mode : Bool := true

/-- The checked constructor `Tensor(names, edges)` (tensor.hpp:158):
build the core from the edges and validate the name list. -/
def Tensor.make (α : Type) [Inhabited α] (names : List String) (edges : List (Edge G)) :
    Except String (Tensor G α) :=
  if debug_mode then
    match check_valid_name names edges.length with
    | Except.error e => Except.error e
    | Except.ok _ => Except.ok { names := names, core := Core.ofEdges α edges }
  else
    Except.ok { names := names, core := Core.ofEdges α edges }

/-- `storage().front() = number`: overwrite the first storage element. -/
def setFront : List α → α → List α
  | [], _ => []
  | _ :: rest, v => v :: rest

/-- The rank-0 constructor `Tensor(ScalarType number)` (tensor.hpp:177):
`Tensor({}, {})` followed by `storage().front() = number`. -/
def Tensor.ofScalar (α : Type) [Inhabited α] (number : α) : Tensor G α :=
  let t : Tensor G α := { names := [], core := Core.ofEdges α [] }
  { t with core := { t.core with storage := setFront t.core.storage number } }

/-- The default constructor `Tensor() : Tensor(1)` (tensor.hpp:166). -/
def Tensor.defaultTensor (α : Type) [Inhabited α] [One α] : Tensor G α :=
  Tensor.ofScalar α 1

/-- `Tensor::scalar_like` (tensor.hpp:181): total storage length is 1. -/
def Tensor.scalar_like (t : Tensor G α) : Bool :=
  t.core.storage.length == 1

/-- `Tensor::const_at()` (tensor.hpp:427): fatal error unless the tensor
is scalar-like, else the single stored scalar (`storage().front()`). -/
def Tensor.const_at [Inhabited α] (t : Tensor G α) : Except String α :=
  if !t.scalar_like then
    Except.error "Try to get the only element of t he tensor which contains more than one element"
  else
    Except.ok (t.core.storage.headD default)

/-- `std::lower_bound` over the block list with the lexicographic
comparator (tensor.hpp:478): the index of the first block whose key is
not `lexLt`-below the key.  (On the sorted block list the linear scan
returns the same index as the binary search.) -/
def lowerBound (blocks : List (List G × ℕ × ℕ)) (key : List G) : ℕ :=
  match blocks with
  | [] => 0
  | b :: rest => if lexLt b.1 key then lowerBound rest key + 1 else 0

/-- `Tensor::find_block` (tensor.hpp:473): lower-bound lookup followed by
the equality check; `none` models the `v.end()` result. -/
def find_block (c : Core G α) (key : List G) : Option (List G × ℕ × ℕ) :=
  match c.blocks.get? (lowerBound c.blocks key) with
  | none => none
  | some b => if b.1 = key then some b else none

/-- The storage slab `[off, off+len)`. -/
def sliceAt (storage : List α) (off len : ℕ) : List α :=
  (storage.drop off).take len

/-- `Tensor::blocks(symmetry_list)` (tensor.hpp:491): the content of the
found block, or the fatal error when the lookup misses. -/
def Tensor.blocksAt (t : Tensor G α) (key : List G) : Except String (List α) :=
  match find_block t.core key with
  | none => Except.error "No such symmetry block in the tensor"
  | some b => Except.ok (sliceAt t.core.storage b.2.1 b.2.2)

/-- The squared modulus `std::norm` of a complex scalar modelled as a
pair of rationals (real part, imaginary part). -/
def cnormSq (z : ℚ × ℚ) : ℚ :=
  z.1 * z.1 + z.2 * z.2

/-- The `p = 2` accumulation loop of `Tensor::norm` (tensor.hpp:376):
`result += std::norm(number)` over the flat storage. -/
def Tensor.normTwoSq (t : Tensor G (ℚ × ℚ)) : ℚ :=
  t.core.storage.foldl (fun acc z => acc + cnormSq z) 0

/-- `Tensor::norm<2>` (tensor.hpp:360): the accumulated sum of squared
moduli followed by `std::pow(result, 1/2)`. -/
noncomputable def Tensor.normTwo (t : Tensor G (ℚ × ℚ)) : ℝ :=
  Real.sqrt (t.normTwoSq : ℚ)

/-! ## The shared-Core heap model

A `Core` lives behind a `std::shared_ptr` (tensor.hpp:139); several
`Tensor` handles may point at the same core.  `World` is the heap of
cores, a `Handle` is one `Tensor` object, and `use_count` of a core is
the number of handles pointing at it. -/

/-- The heap of cores. -/
structure World (G α : Type) where
  cores : List (Core G α)

/-- One `Tensor` object: its `names` vector plus the id of the `Core` it
holds shared ownership of. -/
structure Handle (G : Type) where
  names : List String
  coreId : ℕ

/-- The core a heap id designates (a dummy empty core for a dangling id). -/
def World.coreAt (w : World G α) (i : ℕ) : Core G α :=
  (w.cores.get? i).getD ⟨[], [], []⟩

/-- `shared_ptr::use_count`: how many handles point at core `cid`. -/
def useCount (hs : List (Handle G)) (cid : ℕ) : ℕ :=
  hs.countP (fun h => h.coreId == cid)

/-- The handle at position `i` of the handle list. -/
def handleAt (hs : List (Handle G)) (i : ℕ) : Handle G :=
  (hs.get? i).getD ⟨[], 0⟩

/-- The flat storage seen through handle `j`. -/
def handleView (w : World G α) (hs : List (Handle G)) (j : ℕ) : List α :=
  (w.coreAt (handleAt hs j).coreId).storage

/-- `Tensor::acquare_data_ownership` (tensor.hpp:330): when the core is
shared (`use_count != 1`) replace handle `i`'s core by a fresh copy
(`std::make_shared<Core>(*core)`); the diagnostic message it emits is not
modelled. -/
def acquare_data_ownership (w : World G α) (hs : List (Handle G)) (i : ℕ) :
    World G α × List (Handle G) :=
  let h := handleAt hs i
  if useCount hs h.coreId ≠ 1 then
    ({ cores := w.cores ++ [w.coreAt h.coreId] },
     hs.set i { h with coreId := w.cores.length })
  else
    (w, hs)

/-- The shape of every mutating storage operation of `Tensor`
(tensor.hpp:237 `transform`, 288 `set`, 302 `zero`, 315 `range`, 404-416
non-const `at`): acquire ownership first, then rewrite the storage of the
(now exclusively owned) core through `u`. -/
def mutateStorage (u : List α → List α) (w : World G α) (hs : List (Handle G)) (i : ℕ) :
    World G α × List (Handle G) :=
  let (w1, hs1) := acquare_data_ownership w hs i
  let h := handleAt hs1 i
  let c := w1.coreAt h.coreId
  ({ cores := w1.cores.set h.coreId { c with storage := u c.storage } }, hs1)

/-- `Tensor::transform` (tensor.hpp:237): `std::transform` over the storage. -/
def transformH (f : α → α) : World G α → List (Handle G) → ℕ → World G α × List (Handle G) :=
  mutateStorage (fun s => s.map f)

/-- `Tensor::set` (tensor.hpp:288): `std::generate` over the storage,
with the generator's `k`-th invocation modelled as `gen k`. -/
def setWithH (gen : ℕ → α) : World G α → List (Handle G) → ℕ → World G α × List (Handle G) :=
  mutateStorage (fun s => (List.range s.length).map gen)

/-- `Tensor::zero` (tensor.hpp:302): `set` with the constant-0 generator. -/
def zeroH [Zero α] : World G α → List (Handle G) → ℕ → World G α × List (Handle G) :=
  setWithH (fun _ => 0)

/-- `Tensor::range` (tensor.hpp:315): `set` with the arithmetic-sequence
generator `first, first+step, …`. -/
def rangeH [Semiring α] (first step : α) :
    World G α → List (Handle G) → ℕ → World G α × List (Handle G) :=
  setWithH (fun k => first + step * (k : α))

/-- The non-const `at` overloads (tensor.hpp:404-416) used as lvalue:
acquire ownership, then write one storage position. -/
def atMutH (j : ℕ) (v : α) : World G α → List (Handle G) → ℕ → World G α × List (Handle G) :=
  mutateStorage (fun s => s.set j v)

/-- Read-only storage access (`storage() const&`, tensor.hpp:440): the
world and the handles are returned untouched. -/
def readStorageH (w : World G α) (hs : List (Handle G)) (i : ℕ) :
    (World G α × List (Handle G)) × List α :=
  ((w, hs), handleView w hs i)

/-- Association-list lookup keyed by a name. -/
def lookupBy {β : Type} (m : List (String × β)) (k : String) : Option β :=
  (m.find? (fun p => p.1 == k)).map Prod.snd

/-- Apply a rename dictionary to one name: replaced when present,
unchanged otherwise. -/
def applyDict (dict : List (String × String)) (n : String) : String :=
  (lookupBy dict n).getD n

/-- Modelled from the spec (§4.4 "rename"; `edge_rename` is only declared
at tensor.hpp:575, its body lives outside `src/`): return a Tensor that
shares the same Core, with the dictionary applied to the `names`
vector; no data is copied. -/
def edge_renameH (h : Handle G) (dict : List (String × String)) : Handle G :=
  { names := h.names.map (applyDict dict), coreId := h.coreId }

/-- `edge_rename` seen at the heap level: the world is untouched. -/
def edge_renameW (w : World G α) (h : Handle G) (dict : List (String × String)) :
    World G α × Handle G :=
  (w, edge_renameH h dict)

/-- Overwrite the beginning of `dst` with `src`
(`std::transform(src.begin(), src.end(), dst.begin())`). -/
def writeInto (dst src : List β) : List β :=
  src ++ dst.drop src.length

/-- `Tensor::map` (tensor.hpp:264): `same_shape` (a fresh Tensor built
from the same names and edges, tensor.hpp:254) followed by
`std::transform` of the old storage into the fresh storage. -/
def Tensor.mapT {β : Type} [Inhabited β] (t : Tensor G α) (f : α → β) : Tensor G β :=
  let result : Tensor G β := { names := t.names, core := Core.ofEdges β t.core.edges }
  { result with core := { result.core with storage := writeInto result.core.storage (t.core.storage.map f) } }

/-- `Tensor::to<OtherScalarType>` for complex input and real target
(tensor.hpp:345): `map` with `input.real()`, the imaginary part dropped. -/
def Tensor.toReal (t : Tensor G (ℚ × ℚ)) : Tensor G ℚ :=
  t.mapT (fun z => z.1)

/-- `Tensor::to<ScalarType>` when the target scalar type equals the
tensor's own (tensor.hpp:342): `return *this` — the same handle, the
world untouched, nothing copied. -/
def toSameW (w : World G α) (h : Handle G) : World G α × Handle G :=
  (w, h)

/-- A tensor handle is well formed when its core id is live and its core's
storage has the length the core constructor gives that edge list. -/
def World.wfHandle (w : World G α) (h : Handle G) : Prop :=
  h.coreId < w.cores.length ∧
    (w.coreAt h.coreId).storage.length = totalVolume (w.coreAt h.coreId).edges

/-! ## The edge operator (spec §4.3)

`edge_operator_implement` is only declared at tensor.hpp:557; its body
lives outside `src/`, so the fused split/reverse/transpose/merge pipeline
below is modelled from the spec.  The callers `Tensor::edge_operator`
(tensor.hpp:531) and `Tensor::transpose` (tensor.hpp:583) are translated
from the source. -/

/-- A segment list (the shape of one edge). -/
abbrev SegList (G : Type) := List (G × ℕ)

/-- Cartesian product of several segment lists, first list slowest
(row-major over the declared sub-edge order, spec §4.3 Stage E). -/
def segProduct : List (SegList G) → List (List (G × ℕ))
  | [] => [[]]
  | s :: ss => (s.map (fun x => (segProduct ss).map (fun c => x :: c))).flatten

/-- Total charge of one product combination. -/
def comboCharge (c : List (G × ℕ)) : G :=
  chargeSum (c.map Prod.fst)

/-- Dense volume of one product combination. -/
def comboDim (c : List (G × ℕ)) : ℕ :=
  (c.map Prod.snd).prod

/-- Accumulate a `(charge, dim)` pair into a segment list: equal charges
combine by summing dimensions, first-appearance order is kept
(spec §4.1 "Merging two edges"). -/
def insertSeg : SegList G → G → ℕ → SegList G
  | [], q, d => [(q, d)]
  | (q0, d0) :: rest, q, d =>
    if q0 = q then (q0, d0 + d) :: rest else (q0, d0) :: insertSeg rest q d

/-- Modelled from the spec (§4.1): the segments of the merge of several
edges — every product combination contributes its total charge and the
product of its dimensions. -/
def mergedSegments (subs : List (Edge G)) : SegList G :=
  (segProduct (subs.map Edge.segments)).foldl
    (fun acc c => insertSeg acc (comboCharge c) (comboDim c)) []

/-- Modelled from the spec (§4.3 input 5): the merged edge inherits the
first constituent's arrow. -/
def mergedEdge (subs : List (Edge G)) : Edge G :=
  { segments := mergedSegments subs, arrow := (subs.map Edge.arrow).headD false }

/-- Row-major decomposition of a flat offset into per-axis indices. -/
def rowMajorDecompose : List ℕ → ℕ → List ℕ
  | [], _ => []
  | _ :: ds, x => (x / ds.prod) :: rowMajorDecompose ds (x % ds.prod)

/-- Row-major composition of per-axis indices into a flat offset. -/
def rowMajorCompose : List ℕ → List ℕ → ℕ
  | _ :: ds, x :: xs => x * ds.prod + rowMajorCompose ds xs
  | _, _ => 0

/-- Walk the product combinations of a merged edge: combinations whose
total charge is `Q` occupy consecutive slabs of their volume; find the
combination holding in-segment offset `x` and split it into per-sub-edge
`(charge, index)` pairs (spec §4.3 Stage E layout). -/
def unmergeGo (Q : G) : List (List (G × ℕ)) → ℕ → Option (List (G × ℕ))
  | [], _ => none
  | c :: cs, x =>
    if comboCharge c = Q then
      if x < comboDim c then
        some ((c.map Prod.fst).zip (rowMajorDecompose (c.map Prod.snd) x))
      else
        unmergeGo Q cs (x - comboDim c)
    else
      unmergeGo Q cs x

/-- Per-sub-edge `(charge, in-segment index)` of offset `x` inside the
`Q`-segment of the merge of `subs`. -/
def unmergeIndex (subs : List (Edge G)) (Q : G) (x : ℕ) : List (G × ℕ) :=
  (unmergeGo Q (segProduct (subs.map Edge.segments)) x).getD []

/-- The inverse walk: the in-segment offset of the combination with
charges `qs` and per-sub-edge indices `xs`, inside the
`chargeSum qs`-segment of the merged edge. -/
def packGo (Q : G) (qs : List G) (xs : List ℕ) : List (List (G × ℕ)) → ℕ → ℕ
  | [], acc => acc
  | c :: cs, acc =>
    if c.map Prod.fst = qs then
      acc + rowMajorCompose (c.map Prod.snd) xs
    else if comboCharge c = Q then
      packGo Q qs xs cs (acc + comboDim c)
    else
      packGo Q qs xs cs acc

/-- In-segment offset of sub-charges `qs` at sub-indices `xs` inside the
merge of the segment lists `segss` (used to undo a split, spec §4.3
Stage A: the sub-edges must reconstruct the original edge via merge). -/
def packIndex (segss : List (SegList G)) (qs : List G) (xs : List ℕ) : ℕ :=
  packGo (chargeSum qs) qs xs (segProduct segss) 0

/-- Dimension lookup in a segment list. -/
def lookupSym (m : SegList G) (q : G) : Option ℕ :=
  (m.find? (fun p => decide (p.1 = q))).map Prod.snd

/-- Modelled from the spec: the `edge_and_symmetries_to_cut_before_all`
argument (tensor.hpp:568, used only by svd): the named edges keep the
listed dimension for the listed charges, the leading slice of each
segment. -/
def applyCut (cut : List (String × SegList G)) (n : String) (e : Edge G) : Edge G :=
  match lookupBy cut n with
  | none => e
  | some m =>
    { e with segments := e.segments.map (fun s => (s.1, (lookupSym m s.1).getD s.2)) }

/-- Stage A (spec §4.3): replace each split edge by its sub-edges, each
inheriting the original arrow; splitting into zero sub-edges drops the
edge. -/
def splitStage (split : List (String × List (String × SegList G)))
    (ps : List (String × Edge G)) : List (String × Edge G) :=
  (ps.map (fun p =>
    match lookupBy split p.1 with
    | some subs => subs.map (fun s => (s.1, Edge.mk s.2 p.2.arrow))
    | none => [p])).flatten

/-- Stages B and D (spec §4.3): flip the arrow of every named edge. -/
def reverseStage (rev : List String) (ps : List (String × Edge G)) : List (String × Edge G) :=
  ps.map (fun p => if rev.contains p.1 then (p.1, { p.2 with arrow := !p.2.arrow }) else p)

/-- Stage C (spec §4.3): reorder the named edges into `new_names` order. -/
def reorderBy (ps : List (String × Edge G)) (new_names : List String) :
    List (String × Edge G) :=
  new_names.filterMap (fun n => ps.find? (fun p => p.1 == n))

/-- Automatic reverse insertion (spec §4.3): within each merge group the
first sub-edge's arrow is the target; every disagreeing sub-edge is
flipped before the merge. -/
def autoFlipNames (merge : List (String × List String)) (ps : List (String × Edge G)) :
    List String :=
  (merge.map (fun g =>
    match g.2.filterMap (fun n => lookupBy ps n) with
    | [] => []
    | e0 :: _ =>
      g.2.filter (fun n =>
        match lookupBy ps n with
        | some e => decide (e.arrow ≠ e0.arrow)
        | none => false))).flatten

/-- The merge group a name belongs to, when any. -/
def mergedGroupOf (merge : List (String × List String)) (n : String) : Option String :=
  (merge.find? (fun g => g.2.contains n)).map Prod.fst

/-- The final name list: each merge group, contiguous in `new_names`, is
replaced (at its first constituent) by the merged name. -/
def collapseNames (merge : List (String × List String)) (ns : List String) : List String :=
  ns.filterMap (fun n =>
    match mergedGroupOf merge n with
    | none => some n
    | some m => if ((lookupBy merge m).getD []).head? = some n then some m else none)

/-- The edges of a merge group, in declared order. -/
def groupEdges (ps : List (String × Edge G)) (grp : List String) : List (Edge G) :=
  grp.filterMap (fun n => lookupBy ps n)

/-- The final edge list: a merged edge per merge group, the transposed
edge otherwise. -/
def finalEdges (merge : List (String × List String)) (ps : List (String × Edge G))
    (fns : List String) : List (Edge G) :=
  fns.map (fun n =>
    match lookupBy merge n with
    | some grp => mergedEdge (groupEdges ps grp)
    | none => (lookupBy ps n).getD ⟨[], false⟩)

/-- Per-edge dimensions of a block tuple. -/
def dimsOf : List (Edge G) → List G → List ℕ
  | e :: es, q :: qs => e.dimOf q :: dimsOf es qs
  | _, _ => []

/-- `(-1)^(n·(n-1)/2)`: the fermionic sign of bringing `n` odd charges
together in a merge or split (spec §4.3 Stage E). -/
def pairParity (n : ℕ) : Bool :=
  decide (n * (n - 1) / 2 % 2 = 1)

/-- Number of fermionic inversions: pairs whose target positions are out
of order and whose charges are both odd (spec §4.3 Stage C). -/
def inversionCount : List (ℕ × Bool) → ℕ
  | [] => 0
  | x :: rest =>
    (if x.2 then rest.countP (fun r => decide (r.1 < x.1) && r.2) else 0) + inversionCount rest

/-- The `(charge, index)` entry a named edge carries in an entry list. -/
def entryFor [AddCommGroup G] (ents : List (String × G × ℕ)) (n : String) : G × ℕ :=
  ((ents.find? (fun e => e.1 == n)).map Prod.snd).getD (0, 0)

section EdgeOperator

variable [FermiParity G]

/-- Modelled from the spec (§4.3, §4.3 "Algorithmic realisation"): the
body of `edge_operator_implement` (declared tensor.hpp:557; definition
not under `src/`).  The pipeline is realised element by element: for
every scalar of the output tensor the contributing input scalar and the
accumulated fermionic sign are computed by undoing merge, transpose and
split.  Arguments follow the C++ parameter order. -/
def edge_operator_implement [Ring α] [Inhabited α] (t : Tensor G α)
    (split : List (String × List (String × SegList G)))
    (reversed_name : List String)
    (merge : List (String × List String))
    (new_names : List String)
    (apply_parity : Bool)
    (parity_exclude_name_split : List String)
    (parity_exclude_name_reversed_before_transpose : List String)
    (parity_exclude_name_reversed_after_transpose : List String)
    (parity_exclude_name_merge : List String)
    (edge_and_symmetries_to_cut_before_all : List (String × SegList G)) :
    Tensor G α :=
  let parity : G → Bool := FermiParity.parity
  let cutE := (t.names.zip t.core.edges).map
    (fun p => (p.1, applyCut edge_and_symmetries_to_cut_before_all p.1 p.2))
  let psA := splitStage split cutE
  let psB := reverseStage reversed_name psA
  let psC := reorderBy psB new_names
  let flips := autoFlipNames merge psC
  let psD := reverseStage flips psC
  let fns := collapseNames merge new_names
  let fes := finalEdges merge psD fns
  let elementAt := fun (Q : List G) (off : ℕ) =>
    let xs := rowMajorDecompose (dimsOf fes Q) off
    let ents := ((fns.zip (Q.zip xs)).map (fun v =>
      match lookupBy merge v.1 with
      | some grp =>
        grp.zip (unmergeIndex (groupEdges psD grp) v.2.1 v.2.2)
      | none => [(v.1, v.2.1, v.2.2)])).flatten
    let sMerge := (fns.zip (Q.zip xs)).foldl (fun acc v =>
      match lookupBy merge v.1 with
      | some grp =>
        let qs := (unmergeIndex (groupEdges psD grp) v.2.1 v.2.2).map Prod.fst
        xor acc (pairParity (qs.countP parity) &&
          xor apply_parity (parity_exclude_name_merge.contains v.1))
      | none => acc) false
    let sRevAfter := ents.foldl (fun acc e =>
      xor acc (flips.contains e.1 && parity e.2.1 &&
        xor apply_parity (parity_exclude_name_reversed_after_transpose.contains e.1))) false
    let srcEnts := psB.map (fun p => (p.1, entryFor ents p.1))
    let sTrans := decide (inversionCount (srcEnts.map (fun e =>
      (new_names.findIdx (fun m => m == e.1), parity e.2.1))) % 2 = 1)
    let sRevBefore := srcEnts.foldl (fun acc e =>
      xor acc (reversed_name.contains e.1 && parity e.2.1 &&
        xor apply_parity (parity_exclude_name_reversed_before_transpose.contains e.1))) false
    let origEnts := t.names.map (fun n =>
      match lookupBy split n with
      | some subs =>
        (chargeSum (subs.map (fun s => (entryFor srcEnts s.1).1)),
         packIndex (subs.map Prod.snd)
           (subs.map (fun s => (entryFor srcEnts s.1).1))
           (subs.map (fun s => (entryFor srcEnts s.1).2)))
      | none => entryFor srcEnts n)
    let sSplit := t.names.foldl (fun acc n =>
      match lookupBy split n with
      | some subs =>
        xor acc (pairParity ((subs.map (fun s => (entryFor srcEnts s.1).1)).countP parity) &&
          xor apply_parity (parity_exclude_name_split.contains n))
      | none => acc) false
    let tuple := origEnts.map Prod.fst
    let inner := rowMajorCompose (dimsOf t.core.edges tuple) (origEnts.map Prod.snd)
    let v :=
      match find_block t.core tuple with
      | none => (default : α)
      | some b => (t.core.storage.get? (b.2.1 + inner)).getD default
    if xor sMerge (xor sRevAfter (xor sTrans (xor sRevBefore sSplit))) then -v else v
  let core0 : Core G α := Core.ofEdges α fes
  { names := fns
    core := { core0 with
      storage := ((sortedTuples fes).map (fun Q =>
        (List.range (volume fes Q)).map (elementAt Q))).flatten } }

/-- `Tensor::edge_operator` (tensor.hpp:531): forward everything to
`edge_operator_implement`, the svd-only cut argument empty. -/
def Tensor.edge_operator [Ring α] [Inhabited α] (t : Tensor G α)
    (split : List (String × List (String × SegList G)))
    (reversed_name : List String)
    (merge : List (String × List String))
    (new_names : List String)
    (apply_parity : Bool)
    (parity_exclude_name_split : List String)
    (parity_exclude_name_reversed_before_transpose : List String)
    (parity_exclude_name_reversed_after_transpose : List String)
    (parity_exclude_name_merge : List String) : Tensor G α :=
  edge_operator_implement t split reversed_name merge new_names apply_parity
    parity_exclude_name_split
    parity_exclude_name_reversed_before_transpose
    parity_exclude_name_reversed_after_transpose
    parity_exclude_name_merge
    []

/-- `Tensor::transpose` (tensor.hpp:583): `edge_operator_implement` with
every argument empty except the target name order. -/
def Tensor.transpose [Ring α] [Inhabited α] (t : Tensor G α) (target_names : List String) :
    Tensor G α :=
  edge_operator_implement t [] [] [] target_names false [] [] [] [] []

end EdgeOperator

/-! ## Concrete instances used to exercise the theorems -/

/-- A one-core heap whose single core is pointed at by two handles. -/
def wExample : World ℤ ℚ :=
  ⟨[⟨[], [], [1, 2]⟩]⟩

/-- Two handles sharing core 0 of `wExample`. -/
def hsExample : List (Handle ℤ) :=
  [⟨["x"], 0⟩, ⟨["y"], 0⟩]

/-- A concrete storage rewrite (the `transform` of `+1`). -/
def uExample : List ℚ → List ℚ :=
  fun s => s.map (fun x => x + 1)

/-- The tensor of `test_create_fermi_tensor.conversion_scalar_empty`: one
edge carrying only charge `+1`, hence no conservation-allowed block and
empty storage. -/
def emptyScalarTensor : Tensor ℤ ℚ :=
  ⟨["i"], Core.ofEdges ℚ [⟨[(1, 2333)], true⟩]⟩

/-- The rank-0 tensor holding `2333`. -/
def scalarExampleTensor : Tensor ℤ ℚ :=
  Tensor.ofScalar ℚ 2333

/-- A rank-2 `U1` tensor with blocks `(-1,1)` and `(0,0)`. -/
def lookupExampleTensor : Tensor ℤ ℚ :=
  ⟨["i", "j"], Core.ofEdges ℚ [⟨[(-1, 1), (0, 1)], false⟩, ⟨[(0, 1), (1, 1)], false⟩]⟩

/-- A rank-1 complex tensor with two stored scalars. -/
def complexExampleTensor : Tensor ℤ (ℚ × ℚ) :=
  ⟨["i"], { Core.ofEdges (ℚ × ℚ) [⟨[(0, 2)], false⟩] with storage := [(1, 2), (3, 4)] }⟩

/-! ## Theorems -/

/-- Accumulating a mapped value over a list is summing the mapped list. -/
theorem foldl_add_map {β : Type} (f : β → ℚ) :
    ∀ (l : List β) (a : ℚ), l.foldl (fun acc z => acc + f z) a = a + (l.map f).sum := by
  intro l
  induction l with
  | nil => simp
  | cons x xs ih => intro a; simp [ih, add_assoc]

/-- `hasDuplicate` decides the negation of `Nodup`. -/
theorem hasDuplicate_iff : ∀ l : List String, hasDuplicate l = true ↔ ¬l.Nodup := by
  intro l
  induction l with
  | nil => simp [hasDuplicate]
  | cons n rest ih =>
    simp only [hasDuplicate, Bool.or_eq_true, ih, List.nodup_cons]
    constructor
    · rintro (hc | hd)
      · exact fun hn => hn.1 (by simpa using hc)
      · exact fun hn => hd hn.2
    · intro hn
      by_cases hm : n ∈ rest
      · exact Or.inl (by simpa using hm)
      · by_cases hd : rest.Nodup
        · exact absurd ⟨hm, hd⟩ hn
        · exact Or.inr hd

/-- C9: the default constructor `Tensor()` produces the rank-0 tensor
(empty name and edge lists) whose storage holds exactly the scalar `1` —
neither zero-initialized nor left unset. -/
theorem default_tensor_is_one {G : Type} [AddCommGroup G] [LinearOrder G]
    (α : Type) [Inhabited α] [One α] :
    (Tensor.defaultTensor α : Tensor G α).names = [] ∧
    (Tensor.defaultTensor α : Tensor G α).core.edges = [] ∧
    (Tensor.defaultTensor α : Tensor G α).core.storage = [1] := by
  refine ⟨rfl, rfl, ?_⟩
  have h1 : allowedTuples ([] : List (Edge G)) = [[]] := by
    simp [allowedTuples, chargeTuples, chargeSum]
  have h2 : sortedTuples ([] : List (Edge G)) = [[]] := by
    rw [sortedTuples, h1]; rfl
  have h3 : totalVolume ([] : List (Edge G)) = 1 := by
    rw [totalVolume, h2]; rfl
  show setFront (List.replicate (totalVolume ([] : List (Edge G))) default) 1 = [1]
  rw [h3]; rfl

/-- C4: `transpose(target_names)` is exactly the full `edge_operator`
pipeline with empty split map, empty reversed set, empty merge map,
`new_names = target_names` and `apply_parity = false`: both forward the
same argument list to `edge_operator_implement`. -/
theorem transpose_eq_edge_operator {G α : Type} [AddCommGroup G] [LinearOrder G]
    [FermiParity G] [Ring α] [Inhabited α] (t : Tensor G α) (target_names : List String) :
    t.transpose target_names = t.edge_operator [] [] [] target_names false [] [] [] [] :=
  rfl

/-- C3: `edge_rename` returns a tensor sharing the same core (same heap,
same core id, no allocation), with the dictionary applied to the name
vector; the original world and handle are untouched. -/
theorem edge_rename_shares_core {G α : Type} [AddCommGroup G] [LinearOrder G]
    (w : World G α) (h : Handle G) (dict : List (String × String)) :
    (edge_renameW w h dict).1 = w ∧
    (edge_renameW w h dict).2.coreId = h.coreId ∧
    (edge_renameW w h dict).2.names = h.names.map (applyDict dict) ∧
    handleView (edge_renameW w h dict).1 [(edge_renameW w h dict).2] 0 =
      handleView w [h] 0 :=
  ⟨rfl, rfl, rfl, rfl⟩

/-- C5: the scalar conversion `const_at()` yields the unique stored
scalar exactly when the storage length is 1, and is the fatal error
otherwise — including the length-0 case of a tensor without any
conservation-allowed block. -/
theorem const_at_spec {G α : Type} [AddCommGroup G] [LinearOrder G] [Inhabited α]
    (t : Tensor G α) :
    ((∃ v, t.const_at = Except.ok v) ↔ t.core.storage.length = 1) ∧
    (∀ v, t.core.storage = [v] → t.const_at = Except.ok v) ∧
    (t.core.storage.length ≠ 1 →
      t.const_at =
        Except.error "Try to get the only element of t he tensor which contains more than one element") := by
  by_cases h : t.core.storage.length = 1
  · have hb : t.scalar_like = true := by simp [Tensor.scalar_like, h]
    refine ⟨⟨fun _ => h,
      fun _ => ⟨t.core.storage.headD default, by simp [Tensor.const_at, hb]⟩⟩,
      ?_, fun hne => absurd h hne⟩
    intro v hv
    simp [Tensor.const_at, hb, hv]
  · have hb : t.scalar_like = false := by simp [Tensor.scalar_like, h]
    refine ⟨⟨?_, fun hl => absurd hl h⟩, ?_, fun _ => by simp [Tensor.const_at, hb]⟩
    · rintro ⟨v, hv⟩
      simp [Tensor.const_at, hb] at hv
    · intro v hv
      rw [hv] at h
      exact absurd rfl h

/-- C7: tensor construction fails exactly when the name list's length
differs from the edge count or the name list holds a duplicate;
otherwise it succeeds and the rank is the common length. -/
theorem tensor_make_validation {G : Type} [AddCommGroup G] [LinearOrder G]
    (α : Type) [Inhabited α] (names : List String) (edges : List (Edge G)) :
    ((∃ t, Tensor.make α names edges = Except.ok t) ↔
      names.length = edges.length ∧ names.Nodup) ∧
    (∀ t, Tensor.make α names edges = Except.ok t →
      t.names = names ∧ t.core.edges = edges ∧ t.names.length = edges.length) := by
  have hmkOk : names.length = edges.length → hasDuplicate names = false →
      Tensor.make α names edges = Except.ok { names := names, core := Core.ofEdges α edges } := by
    intro hlen hdup
    simp [Tensor.make, debug_mode, check_valid_name, hlen, hdup]
  have hmkLen : names.length ≠ edges.length →
      Tensor.make α names edges =
        Except.error "Wrong name list length which no equals to expected length" := by
    intro hlen
    simp [Tensor.make, debug_mode, check_valid_name, hlen]
  have hmkDup : names.length = edges.length → hasDuplicate names = true →
      Tensor.make α names edges = Except.error "Duplicated names in name list" := by
    intro hlen hdup
    simp [Tensor.make, debug_mode, check_valid_name, hlen, hdup]
  by_cases hlen : names.length = edges.length
  · by_cases hdup : hasDuplicate names = true
    · have hnd : ¬names.Nodup := (hasDuplicate_iff names).mp hdup
      rw [hmkDup hlen hdup]
      exact ⟨⟨fun hex => absurd hex.choose_spec (by simp), fun hc => absurd hc.2 hnd⟩,
        fun t ht => by simp at ht⟩
    · have hdf : hasDuplicate names = false := by
        revert hdup; cases hasDuplicate names <;> simp
      have hnd : names.Nodup := by
        by_contra hc
        exact hdup ((hasDuplicate_iff names).mpr hc)
      rw [hmkOk hlen hdf]
      refine ⟨⟨fun _ => ⟨hlen, hnd⟩, fun _ => ⟨_, rfl⟩⟩, ?_⟩
      intro t ht
      have heq : t = { names := names, core := Core.ofEdges α edges } := by
        simpa using ht.symm
      subst heq
      exact ⟨rfl, rfl, hlen⟩
  · rw [hmkLen hlen]
    exact ⟨⟨fun hex => absurd hex.choose_spec (by simp), fun hc => absurd hc.1 hlen⟩,
      fun t ht => by simp at ht⟩

/-- The squared 2-norm accumulator equals the sum of squared moduli. -/
theorem normTwoSq_eq_sum {G : Type} [AddCommGroup G] [LinearOrder G]
    (t : Tensor G (ℚ × ℚ)) : t.normTwoSq = (t.core.storage.map cnormSq).sum := by
  rw [Tensor.normTwoSq, foldl_add_map]
  simp

/-- `lexLt` is irreflexive. -/
theorem lexLt_irrefl : ∀ a : List G, lexLt a a = false := by
  intro a
  induction a with
  | nil => rfl
  | cons x xs ih => simp [lexLt, lt_irrefl, ih]

/-- `lexLt` is transitive. -/
theorem lexLt_trans : ∀ a b c : List G, lexLt a b = true → lexLt b c = true →
    lexLt a c = true := by
  intro a
  induction a with
  | nil =>
    intro b c hab hbc
    cases b with
    | nil => simp [lexLt] at hab
    | cons b0 bs =>
      cases c with
      | nil => simp [lexLt] at hbc
      | cons c0 cs => rfl
  | cons a0 as ih =>
    intro b c hab hbc
    cases b with
    | nil => simp [lexLt] at hab
    | cons b0 bs =>
      cases c with
      | nil => simp [lexLt] at hbc
      | cons c0 cs =>
        simp only [lexLt] at hab hbc ⊢
        rcases lt_trichotomy a0 b0 with h1 | h1 | h1
        · rcases lt_trichotomy b0 c0 with h2 | h2 | h2
          · simp [lt_trans h1 h2]
          · subst h2; simp [h1]
          · simp [lt_asymm h2, h2] at hbc
        · subst h1
          simp only [lt_irrefl, if_false] at hab
          rcases lt_trichotomy a0 c0 with h2 | h2 | h2
          · simp [h2]
          · subst h2
            simp only [lt_irrefl, if_false] at hbc ⊢
            exact ih bs cs hab hbc
          · simp [lt_asymm h2, h2] at hbc
        · simp [lt_asymm h1, h1] at hab

/-- Two lists unrelated by `lexLt` in either direction are equal. -/
theorem lexLt_eq_of_both_false : ∀ a b : List G, lexLt a b = false → lexLt b a = false →
    a = b := by
  intro a
  induction a with
  | nil =>
    intro b h1 _
    cases b with
    | nil => rfl
    | cons b0 bs => simp [lexLt] at h1
  | cons a0 as ih =>
    intro b h1 h2
    cases b with
    | nil => simp [lexLt] at h2
    | cons b0 bs =>
      simp only [lexLt] at h1 h2
      rcases lt_trichotomy a0 b0 with h | h | h
      · simp [h] at h1
      · subst h
        simp only [lt_irrefl, if_false] at h1 h2
        rw [ih bs h1 h2]
      · simp [h, lt_asymm h] at h2

/-- The sorted tuple list is `Pairwise` non-decreasing for the
lexicographic order. -/
theorem sortedTuples_pairwise (edges : List (Edge G)) :
    (sortedTuples edges).Pairwise (fun a b => lexLt b a = false) := by
  haveI : IsTotal (List G) (fun a b => lexLt b a = false) := by
    constructor
    intro a b
    by_cases h : lexLt b a = false
    · exact Or.inl h
    · refine Or.inr ?_
      by_contra h2
      have ha : lexLt b a = true := by revert h; cases lexLt b a <;> simp
      have hb : lexLt a b = true := by revert h2; cases lexLt a b <;> simp
      have := lexLt_trans a b a hb ha
      rw [lexLt_irrefl] at this
      exact Bool.false_ne_true this
  haveI : IsTrans (List G) (fun a b => lexLt b a = false) := by
    constructor
    intro a b c hab hbc
    by_contra h
    have hca : lexLt c a = true := by revert h; cases lexLt c a <;> simp
    by_cases hab2 : lexLt a b = true
    · have hcb := lexLt_trans c a b hca hab2
      rw [hcb] at hbc
      simp at hbc
    · have hab2f : lexLt a b = false := by revert hab2; cases lexLt a b <;> simp
      have heq : a = b := lexLt_eq_of_both_false a b hab2f hab
      subst heq
      rw [hca] at hbc
      simp at hbc
  exact List.sorted_insertionSort _ _

/-- Combine two `Pairwise` facts into one. -/
theorem pairwise_and {β : Type} {R S : β → β → Prop} :
    ∀ {l : List β}, l.Pairwise R → l.Pairwise S → l.Pairwise (fun a b => R a b ∧ S a b)
  | [], _, _ => List.Pairwise.nil
  | _ :: _, hR, hS => by
    obtain ⟨h1, h2⟩ := List.pairwise_cons.mp hR
    obtain ⟨h3, h4⟩ := List.pairwise_cons.mp hS
    exact List.pairwise_cons.mpr ⟨fun b hb => ⟨h1 b hb, h3 b hb⟩, pairwise_and h2 h4⟩

/-- The enumerated charge tuples are distinct when every edge's charges
are distinct. -/
theorem chargeTuples_nodup : ∀ edges : List (Edge G), (∀ e ∈ edges, e.charges.Nodup) →
    (chargeTuples edges).Nodup := by
  intro edges
  induction edges with
  | nil => intro _; simp [chargeTuples]
  | cons e es ih =>
    intro h
    rw [chargeTuples, List.nodup_flatten]
    constructor
    · intro l hl
      obtain ⟨q, _, rfl⟩ := List.mem_map.mp hl
      have hinj : Function.Injective (fun t : List G => q :: t) := by
        intro a b hab
        simpa using hab
      exact (ih (fun e' he' => h e' (List.mem_cons_of_mem _ he'))).map hinj
    · rw [List.pairwise_map]
      have hq : e.charges.Nodup := h e (List.mem_cons_self e es)
      refine hq.imp ?_
      intro q q' hne x hx hx'
      obtain ⟨t1, _, rfl⟩ := List.mem_map.mp hx
      obtain ⟨t2, _, heq⟩ := List.mem_map.mp hx'
      have hqq : q' = q ∧ t2 = t1 := by simpa using heq
      exact hne hqq.1.symm

/-- The sorted tuple list is a permutation of the filtered enumeration,
so membership transfers. -/
theorem mem_sortedTuples {edges : List (Edge G)} {t : List G} :
    t ∈ sortedTuples edges ↔ t ∈ allowedTuples edges :=
  (List.perm_insertionSort _ _).mem_iff

/-- The sorted tuple list is distinct when every edge's charges are. -/
theorem sortedTuples_nodup (edges : List (Edge G)) (h : ∀ e ∈ edges, e.charges.Nodup) :
    (sortedTuples edges).Nodup :=
  (List.perm_insertionSort _ _).nodup_iff.mpr
    ((chargeTuples_nodup edges h).filter _)

/-- An enumerated tuple is exactly a pointwise choice of per-edge charges. -/
theorem mem_chargeTuples : ∀ {edges : List (Edge G)} {t : List G},
    t ∈ chargeTuples edges ↔ List.Forall₂ (fun q e => q ∈ e.charges) t edges := by
  intro edges
  induction edges with
  | nil => intro t; simp [chargeTuples, List.forall₂_nil_right_iff]
  | cons e es ih =>
    intro t
    rw [chargeTuples]
    simp only [List.mem_flatten, List.mem_map]
    constructor
    · rintro ⟨l, ⟨q, hq, rfl⟩, hts⟩
      obtain ⟨t', ht', rfl⟩ := List.mem_map.mp hts
      exact List.Forall₂.cons hq (ih.mp ht')
    · intro hf
      rcases List.forall₂_cons_right_iff.mp hf with ⟨q, t', hq, hf', rfl⟩
      exact ⟨(chargeTuples es).map (fun t0 => q :: t0), ⟨q, hq, rfl⟩,
        List.mem_map_of_mem _ (ih.mpr hf')⟩

/-- A tuple is allowed exactly when it is a pointwise charge choice
satisfying the conservation law. -/
theorem mem_allowedTuples {edges : List (Edge G)} {t : List G} :
    t ∈ allowedTuples edges ↔
      List.Forall₂ (fun q e => q ∈ e.charges) t edges ∧ chargeSum t = 0 := by
  rw [allowedTuples, List.mem_filter, mem_chargeTuples]
  simp

/-- The block keys recorded by `withOffsets` are the given tuples. -/
theorem withOffsets_map_fst (edges : List (Edge G)) :
    ∀ (ts : List (List G)) (off : ℕ), (withOffsets edges ts off).map Prod.fst = ts := by
  intro ts
  induction ts with
  | nil => intro _; rfl
  | cons t ts ih => intro off; simp [withOffsets, ih]

/-- The freshly constructed block index is strictly sorted on its keys. -/
theorem ofEdges_blocks_pairwise (α : Type) [Inhabited α] (edges : List (Edge G))
    (h : ∀ e ∈ edges, e.charges.Nodup) :
    ((Core.ofEdges α edges).blocks).Pairwise (fun a b => lexLt a.1 b.1 = true) := by
  have hcomb := pairwise_and (sortedTuples_pairwise edges) (sortedTuples_nodup edges h)
  have hstrict : (sortedTuples edges).Pairwise (fun a b => lexLt a b = true) := by
    refine hcomb.imp ?_
    rintro a b ⟨h1, h2⟩
    by_contra hf
    have hff : lexLt a b = false := by revert hf; cases lexLt a b <;> simp
    exact h2 (lexLt_eq_of_both_false a b hff h1)
  have hmap : ((withOffsets edges (sortedTuples edges) 0).map Prod.fst).Pairwise
      (fun a b => lexLt a b = true) := by
    rw [withOffsets_map_fst]
    exact hstrict
  exact List.pairwise_map.mp hmap

/-- On a strictly sorted block list, `lower_bound` followed by the
equality test lands exactly on the block with the sought key. -/
theorem lowerBound_get (key : List G) : ∀ blocks : List (List G × ℕ × ℕ),
    blocks.Pairwise (fun a b => lexLt a.1 b.1 = true) →
    ∀ b ∈ blocks, b.1 = key → blocks.get? (lowerBound blocks key) = some b := by
  intro blocks
  induction blocks with
  | nil => intro _ b hb; exact absurd hb (List.not_mem_nil b)
  | cons c rest ih =>
    intro hp b hb hk
    obtain ⟨hhead, htail⟩ := List.pairwise_cons.mp hp
    by_cases hc : lexLt c.1 key = true
    · have hbc : b ≠ c := by
        rintro rfl
        rw [hk, lexLt_irrefl] at hc
        exact Bool.false_ne_true hc
      have hbr : b ∈ rest := by
        rcases List.mem_cons.mp hb with h | h
        · exact absurd h hbc
        · exact h
      have hlb : lowerBound (c :: rest) key = lowerBound rest key + 1 := by
        simp only [lowerBound, hc, if_true]
      rw [hlb]
      simpa using ih htail b hbr hk
    · have hcf : lexLt c.1 key = false := by revert hc; cases lexLt c.1 key <;> simp
      have hlb : lowerBound (c :: rest) key = 0 := by
        simp [lowerBound, hcf]
      rw [hlb]
      rcases List.mem_cons.mp hb with h | h
      · rw [h]; rfl
      · exfalso
        have hx := hhead b h
        rw [hk] at hx
        exact hc hx

/-- `find_block` hit: on a strictly sorted block list it returns the
block carrying the key. -/
theorem find_block_some {α : Type} {c : Core G α} {key : List G}
    (hp : c.blocks.Pairwise (fun a b => lexLt a.1 b.1 = true))
    {b : List G × ℕ × ℕ} (hb : b ∈ c.blocks) (hk : b.1 = key) :
    find_block c key = some b := by
  rw [find_block, lowerBound_get key c.blocks hp b hb hk]
  simp [hk]

/-- `find_block` miss: no key match means the `v.end()` result. -/
theorem find_block_none {α : Type} {c : Core G α} {key : List G}
    (h : ∀ b ∈ c.blocks, b.1 ≠ key) : find_block c key = none := by
  rw [find_block]
  cases hg : c.blocks.get? (lowerBound c.blocks key) with
  | none => rfl
  | some b =>
    have hmem : b ∈ c.blocks := List.get?_mem hg
    simp [h b hmem]

/-- C6: `blocks(key)` returns the content slab of the unique block whose
tuple equals the key when one exists in the sorted block list, and the
fatal lookup-miss error otherwise; being a const member it leaves the
tensor unchanged. -/
theorem blocks_lookup_spec {G α : Type} [AddCommGroup G] [LinearOrder G]
    (t : Tensor G α) (key : List G)
    (hp : t.core.blocks.Pairwise (fun a b => lexLt a.1 b.1 = true)) :
    (∀ b ∈ t.core.blocks, b.1 = key →
      t.blocksAt key = Except.ok (sliceAt t.core.storage b.2.1 b.2.2)) ∧
    ((∀ b ∈ t.core.blocks, b.1 ≠ key) →
      t.blocksAt key = Except.error "No such symmetry block in the tensor") := by
  constructor
  · intro b hb hk
    rw [Tensor.blocksAt, find_block_some hp hb hk]
  · intro h
    rw [Tensor.blocksAt, find_block_none h]

/-- A fresh core can locate a key iff the key is one of its sorted tuples. -/
theorem find_block_isSome_iff (α : Type) [Inhabited α] (edges : List (Edge G))
    (key : List G) (h : ∀ e ∈ edges, e.charges.Nodup) :
    (find_block (Core.ofEdges α edges) key).isSome = true ↔ key ∈ sortedTuples edges := by
  constructor
  · intro hs
    cases hfb : find_block (Core.ofEdges α edges) key with
    | none => rw [hfb] at hs; simp at hs
    | some b =>
      have hbk : b ∈ (Core.ofEdges α edges).blocks ∧ b.1 = key := by
        revert hfb
        rw [find_block]
        cases hg : (Core.ofEdges α edges).blocks.get?
            (lowerBound (Core.ofEdges α edges).blocks key) with
        | none => intro hfb; exact absurd hfb (by simp)
        | some b' =>
          by_cases hk : b'.1 = key
          · simp only [hk, if_true]
            intro hfb
            cases hfb
            exact ⟨List.get?_mem hg, hk⟩
          · simp only [hk, if_false]
            intro hfb
            exact absurd hfb (by simp)
      have hkeys : key ∈ (Core.ofEdges α edges).blocks.map Prod.fst := by
        rw [← hbk.2]
        exact List.mem_map_of_mem _ hbk.1
      rw [show (Core.ofEdges α edges).blocks = withOffsets edges (sortedTuples edges) 0 from rfl,
        withOffsets_map_fst] at hkeys
      exact hkeys
  · intro hk
    have hkeys : key ∈ (withOffsets edges (sortedTuples edges) 0).map Prod.fst := by
      rw [withOffsets_map_fst]
      exact hk
    obtain ⟨b, hb, hfst⟩ := List.mem_map.mp hkeys
    rw [find_block_some (ofEdges_blocks_pairwise α edges h) hb hfst]
    rfl

/-- C1 (counterexample to the signed conservation law): on the edges of
`test_create_fermi_tensor.conversion_scalar` — charges `(-2, +2)`,
arrows `(true, false)` — the block `(-2, +2)` is stored (and the whole
storage is that single scalar) although the signed sum `Σ s_k·q_k`
is `4 ≠ 0`. -/
theorem conservation_signed_counterexample :
    (find_block (Core.ofEdges ℚ [Edge.mk [((-2 : ℤ), 1)] true, Edge.mk [((2 : ℤ), 1)] false])
        [(-2 : ℤ), 2]).isSome = true ∧
    signedSum [Edge.mk [((-2 : ℤ), 1)] true, Edge.mk [((2 : ℤ), 1)] false] [(-2 : ℤ), 2] ≠ 0 ∧
    (Core.ofEdges ℚ [Edge.mk [((-2 : ℤ), 1)] true,
        Edge.mk [((2 : ℤ), 1)] false]).storage.length = 1 := by
  refine ⟨by decide, by decide, by decide⟩

/-- C1 (amended): a block tuple is stored — and locatable through
`find_block` — iff it draws one charge from each edge's segments and its
plain charge sum `Σ_k q_k` is the group identity (no arrow weighting);
the storage length is the sum of the volumes of exactly the stored
blocks. -/
theorem block_conservation_plain {G : Type} [AddCommGroup G] [LinearOrder G]
    (α : Type) [Inhabited α] (edges : List (Edge G)) (key : List G)
    (h : ∀ e ∈ edges, e.charges.Nodup) :
    ((find_block (Core.ofEdges α edges) key).isSome = true ↔
      (List.Forall₂ (fun q e => q ∈ e.charges) key edges ∧ chargeSum key = 0)) ∧
    (Core.ofEdges α edges).storage.length =
      (((Core.ofEdges α edges).blocks).map (fun b => volume edges b.1)).sum := by
  constructor
  · rw [find_block_isSome_iff α edges key h, mem_sortedTuples, mem_allowedTuples]
  · show (List.replicate (totalVolume edges) default).length = _
    rw [List.length_replicate, totalVolume]
    have hmm : ((withOffsets edges (sortedTuples edges) 0).map (fun b => volume edges b.1))
        = (sortedTuples edges).map (volume edges) := by
      have h1 : ((withOffsets edges (sortedTuples edges) 0).map Prod.fst).map (volume edges)
          = (sortedTuples edges).map (volume edges) := by
        rw [withOffsets_map_fst]
      rw [← h1, List.map_map]
      rfl
    rw [show (Core.ofEdges α edges).blocks = withOffsets edges (sortedTuples edges) 0 from rfl,
      hmm]

/-- C8: `norm<2>()` is the square root of the sum of the squared moduli
of every scalar of the flat storage, whatever the block structure, so
`‖t‖₂² = Σ |x|²` over the storage. -/
theorem norm_two_spec {G : Type} [AddCommGroup G] [LinearOrder G]
    (t : Tensor G (ℚ × ℚ)) :
    t.normTwo = Real.sqrt ((t.core.storage.map cnormSq).sum : ℚ) ∧
    t.normTwo ^ 2 = ((t.core.storage.map cnormSq).sum : ℚ) := by
  have hnn : (0 : ℚ) ≤ (t.core.storage.map cnormSq).sum := by
    apply List.sum_nonneg
    intro x hx
    obtain ⟨z, _, rfl⟩ := List.mem_map.mp hx
    unfold cnormSq
    have h1 := mul_self_nonneg z.1
    have h2 := mul_self_nonneg z.2
    linarith
  constructor
  · rw [Tensor.normTwo, normTwoSq_eq_sum]
  · rw [Tensor.normTwo, normTwoSq_eq_sum, Real.sq_sqrt]
    exact_mod_cast hnn

/-- Two distinct positions satisfying a predicate force a count of at
least two. -/
theorem countP_ge_two {β : Type} (p : β → Bool) :
    ∀ (l : List β) (i j : ℕ) (a b : β), i < j → l.get? i = some a → l.get? j = some b →
      p a = true → p b = true → 2 ≤ l.countP p := by
  intro l
  induction l with
  | nil => intro i j a b _ hia _ _ _; simp at hia
  | cons c t ih =>
    intro i j a b hij hia hjb hpa hpb
    cases i with
    | zero =>
      have hac : c = a := by simpa using hia
      cases j with
      | zero => exact absurd hij (lt_irrefl 0)
      | succ k =>
        have hjb' : t.get? k = some b := by simpa using hjb
        have hpos : 0 < t.countP p := List.countP_pos.mpr ⟨b, List.get?_mem hjb', hpb⟩
        have hone : (if (true : Bool) = true then 1 else 0) = 1 := by simp
        rw [List.countP_cons, hac, hpa, hone]
        omega
    | succ i' =>
      cases j with
      | zero => exact absurd hij (by omega)
      | succ j' =>
        have h1 : t.get? i' = some a := by simpa using hia
        have h2 : t.get? j' = some b := by simpa using hjb
        have := ih i' j' a b (by omega) h1 h2 hpa hpb
        rw [List.countP_cons]
        omega

/-- The handle at a live position is the `get?` result. -/
theorem handleAt_get {G : Type} {hs : List (Handle G)} {i : ℕ} (hi : i < hs.length) :
    hs.get? i = some (handleAt hs i) := by
  cases hg : hs.get? i with
  | none =>
    rw [List.get?_eq_none] at hg
    omega
  | some h => simp only [handleAt, hg, Option.getD_some]

/-- The handle at a live position is a member of the handle list. -/
theorem handleAt_mem {G : Type} {hs : List (Handle G)} {i : ℕ} (hi : i < hs.length) :
    handleAt hs i ∈ hs :=
  List.get?_mem (handleAt_get hi)

/-- Two live handles on the same core push the use count to at least 2. -/
theorem useCount_ge_two {G : Type} {hs : List (Handle G)} {i j : ℕ}
    (hi : i < hs.length) (hj : j < hs.length) (hij : i ≠ j)
    (hsame : (handleAt hs j).coreId = (handleAt hs i).coreId) :
    2 ≤ useCount hs (handleAt hs i).coreId := by
  rcases Nat.lt_or_ge i j with h | h
  · exact countP_ge_two _ hs i j _ _ h (handleAt_get hi) (handleAt_get hj)
      (by simp) (by simp [hsame])
  · have hlt : j < i := by omega
    exact countP_ge_two _ hs j i _ _ hlt (handleAt_get hj) (handleAt_get hi)
      (by simp [hsame]) (by simp)

/-- C2: every mutating storage operation first clones the core when it is
shared, so the storage seen through every other handle is unchanged;
when the core is unshared no clone happens (same heap size, same handle);
when it is shared exactly one fresh core is allocated; and a read-only
access changes nothing. -/
theorem cow_mutation_frame {G α : Type} [AddCommGroup G] [LinearOrder G]
    (u : List α → List α) (w : World G α) (hs : List (Handle G)) (i : ℕ)
    (hwf : ∀ h ∈ hs, h.coreId < w.cores.length) (hi : i < hs.length) :
    (∀ j, j < hs.length → j ≠ i →
      handleView (mutateStorage u w hs i).1 (mutateStorage u w hs i).2 j
        = handleView w hs j) ∧
    handleView (mutateStorage u w hs i).1 (mutateStorage u w hs i).2 i
      = u (handleView w hs i) ∧
    (useCount hs (handleAt hs i).coreId = 1 →
      (mutateStorage u w hs i).1.cores.length = w.cores.length ∧
      (mutateStorage u w hs i).2 = hs) ∧
    (useCount hs (handleAt hs i).coreId ≠ 1 →
      (mutateStorage u w hs i).1.cores.length = w.cores.length + 1) ∧
    (readStorageH w hs i).1 = (w, hs) := by
  have hid : (handleAt hs i).coreId < w.cores.length := hwf _ (handleAt_mem hi)
  by_cases hshare : useCount hs (handleAt hs i).coreId = 1
  · have hacq : acquare_data_ownership w hs i = (w, hs) := by
      simp [acquare_data_ownership, hshare]
    have hmut : mutateStorage u w hs i =
        ({ cores := w.cores.set (handleAt hs i).coreId
            { w.coreAt (handleAt hs i).coreId with
              storage := u (w.coreAt (handleAt hs i).coreId).storage } }, hs) := by
      rw [mutateStorage, hacq]
    rw [hmut]
    refine ⟨?_, ?_, fun _ => ⟨by simp, rfl⟩, fun hc => absurd hshare hc, rfl⟩
    · intro j hjlen hji
      have hne : (handleAt hs j).coreId ≠ (handleAt hs i).coreId := by
        intro hsame
        have := useCount_ge_two hi hjlen (fun he => hji he.symm) hsame
        omega
      show (World.coreAt _ (handleAt hs j).coreId).storage
        = (World.coreAt w (handleAt hs j).coreId).storage
      rw [World.coreAt, World.coreAt]
      rw [List.get?_set_ne _ _ (by omega)]
      rfl
    · show (World.coreAt _ (handleAt hs i).coreId).storage
        = u (World.coreAt w (handleAt hs i).coreId).storage
      rw [World.coreAt]
      rw [List.get?_set_eq_of_lt _ hid]
      rfl
  · have hacq : acquare_data_ownership w hs i =
        ({ cores := w.cores ++ [w.coreAt (handleAt hs i).coreId] },
         hs.set i { handleAt hs i with coreId := w.cores.length }) := by
      simp [acquare_data_ownership, hshare]
    have hh1 : handleAt (hs.set i { handleAt hs i with coreId := w.cores.length }) i
        = { handleAt hs i with coreId := w.cores.length } := by
      rw [handleAt, List.get?_set_eq_of_lt _ hi]
      rfl
    have hmut : mutateStorage u w hs i =
        ({ cores := (w.cores ++ [w.coreAt (handleAt hs i).coreId]).set w.cores.length
            { w.coreAt (handleAt hs i).coreId with
              storage := u (w.coreAt (handleAt hs i).coreId).storage } },
         hs.set i { handleAt hs i with coreId := w.cores.length }) := by
      rw [mutateStorage, hacq]
      have hcopy : (World.mk (w.cores ++ [w.coreAt (handleAt hs i).coreId])).coreAt
          w.cores.length = w.coreAt (handleAt hs i).coreId := by
        rw [World.coreAt, List.get?_append_right (le_refl _)]
        simp
      simp only [hh1]
      rw [hcopy]
    rw [hmut]
    refine ⟨?_, ?_, fun hc => absurd hc hshare, fun _ => by simp, rfl⟩
    · intro j hjlen hji
      have hgj : handleAt (hs.set i { handleAt hs i with coreId := w.cores.length }) j
          = handleAt hs j := by
        rw [handleAt, List.get?_set_ne _ _ (fun he => hji he.symm)]
        rfl
      have hjid : (handleAt hs j).coreId < w.cores.length := hwf _ (handleAt_mem hjlen)
      show (World.coreAt _
          (handleAt (hs.set i { handleAt hs i with coreId := w.cores.length }) j).coreId).storage
        = (World.coreAt w (handleAt hs j).coreId).storage
      rw [hgj]
      rw [World.coreAt, World.coreAt]
      rw [List.get?_set_ne _ _ (by omega)]
      rw [List.get?_append hjid]
      rfl
    · show (World.coreAt _
          (handleAt (hs.set i { handleAt hs i with coreId := w.cores.length }) i).coreId).storage
        = u (World.coreAt w (handleAt hs i).coreId).storage
      rw [hh1]
      show (World.coreAt _ w.cores.length).storage = _
      rw [World.coreAt, List.get?_set_eq_of_lt _ (by simp)]
      rfl

/-- C10: converting a complex tensor to its real scalar type keeps names
and edges and maps every stored element to its real part (the imaginary
part is silently dropped, never an error); converting to the tensor's own
scalar type returns the very same handle sharing the same core. -/
theorem to_scalar_conversion_spec {G : Type} [AddCommGroup G] [LinearOrder G]
    (t : Tensor G (ℚ × ℚ)) (hwf : t.core.storage.length = totalVolume t.core.edges) :
    t.toReal.names = t.names ∧
    t.toReal.core.edges = t.core.edges ∧
    t.toReal.core.storage = t.core.storage.map (fun z => z.1) ∧
    (∀ (w : World G (ℚ × ℚ)) (h : Handle G), toSameW w h = (w, h)) := by
  refine ⟨rfl, rfl, ?_, fun w h => rfl⟩
  show writeInto (List.replicate (totalVolume t.core.edges) default)
      (t.core.storage.map (fun z => z.1)) = t.core.storage.map (fun z => z.1)
  rw [writeInto]
  have hlen : (List.replicate (totalVolume t.core.edges) (default : ℚ)).length
      ≤ (t.core.storage.map (fun z => z.1)).length := by
    rw [List.length_replicate, List.length_map, hwf]
  rw [List.drop_eq_nil_of_le hlen]
  exact List.append_nil _

/-! ## Witnesses -/

/-- Witness for `block_conservation_plain` on the edges of
`test_create_fermi_tensor.conversion_scalar`. -/
theorem block_conservation_plain_witness :
    ((find_block (Core.ofEdges ℚ [Edge.mk [((-2 : ℤ), 1)] true, Edge.mk [((2 : ℤ), 1)] false])
        [(-2 : ℤ), 2]).isSome = true ↔
      (List.Forall₂ (fun (q : ℤ) (e : Edge ℤ) => q ∈ e.charges) [(-2 : ℤ), 2]
          [Edge.mk [((-2 : ℤ), 1)] true, Edge.mk [((2 : ℤ), 1)] false] ∧
        chargeSum [(-2 : ℤ), 2] = 0)) ∧
    (Core.ofEdges ℚ [Edge.mk [((-2 : ℤ), 1)] true,
        Edge.mk [((2 : ℤ), 1)] false]).storage.length =
      (((Core.ofEdges ℚ [Edge.mk [((-2 : ℤ), 1)] true,
          Edge.mk [((2 : ℤ), 1)] false]).blocks).map
        (fun b => volume [Edge.mk [((-2 : ℤ), 1)] true,
          Edge.mk [((2 : ℤ), 1)] false] b.1)).sum :=
  block_conservation_plain ℚ _ _ (by decide)

/-- Witness for `cow_mutation_frame` on a two-handle shared core. -/
theorem cow_mutation_frame_witness :
    (∀ j, j < hsExample.length → j ≠ 0 →
      handleView (mutateStorage uExample wExample hsExample 0).1
          (mutateStorage uExample wExample hsExample 0).2 j
        = handleView wExample hsExample j) ∧
    handleView (mutateStorage uExample wExample hsExample 0).1
        (mutateStorage uExample wExample hsExample 0).2 0
      = uExample (handleView wExample hsExample 0) ∧
    (useCount hsExample (handleAt hsExample 0).coreId = 1 →
      (mutateStorage uExample wExample hsExample 0).1.cores.length
          = wExample.cores.length ∧
      (mutateStorage uExample wExample hsExample 0).2 = hsExample) ∧
    (useCount hsExample (handleAt hsExample 0).coreId ≠ 1 →
      (mutateStorage uExample wExample hsExample 0).1.cores.length
        = wExample.cores.length + 1) ∧
    (readStorageH wExample hsExample 0).1 = (wExample, hsExample) :=
  cow_mutation_frame uExample wExample hsExample 0 (by decide) (by decide)

/-- Witness for `const_at_spec`: the rank-0 tensor yields its scalar, the
block-free tensor of `conversion_scalar_empty` errors. -/
theorem const_at_spec_witness :
    scalarExampleTensor.const_at = Except.ok 2333 ∧
    emptyScalarTensor.const_at =
      Except.error "Try to get the only element of t he tensor which contains more than one element" :=
  ⟨(const_at_spec scalarExampleTensor).2.1 2333 (by decide),
   (const_at_spec emptyScalarTensor).2.2 (by decide)⟩

/-- Witness for `blocks_lookup_spec` on a two-block core. -/
theorem blocks_lookup_spec_witness :
    (∀ b ∈ lookupExampleTensor.core.blocks, b.1 = [(-1 : ℤ), 1] →
      lookupExampleTensor.blocksAt [(-1 : ℤ), 1]
        = Except.ok (sliceAt lookupExampleTensor.core.storage b.2.1 b.2.2)) ∧
    ((∀ b ∈ lookupExampleTensor.core.blocks, b.1 ≠ [(-1 : ℤ), 1]) →
      lookupExampleTensor.blocksAt [(-1 : ℤ), 1]
        = Except.error "No such symmetry block in the tensor") :=
  blocks_lookup_spec lookupExampleTensor [(-1 : ℤ), 1] (by decide)

/-- Witness for `tensor_make_validation` on a valid two-edge input. -/
theorem tensor_make_validation_witness :
    ((∃ t, Tensor.make ℚ ["i", "j"]
        [Edge.mk [((0 : ℤ), 2)] false, Edge.mk [((0 : ℤ), 3)] false] = Except.ok t) ↔
      (["i", "j"].length
          = [Edge.mk [((0 : ℤ), 2)] false, Edge.mk [((0 : ℤ), 3)] false].length ∧
        (["i", "j"] : List String).Nodup)) ∧
    (∀ t, Tensor.make ℚ ["i", "j"]
        [Edge.mk [((0 : ℤ), 2)] false, Edge.mk [((0 : ℤ), 3)] false] = Except.ok t →
      t.names = ["i", "j"] ∧
      t.core.edges = [Edge.mk [((0 : ℤ), 2)] false, Edge.mk [((0 : ℤ), 3)] false] ∧
      t.names.length
        = [Edge.mk [((0 : ℤ), 2)] false, Edge.mk [((0 : ℤ), 3)] false].length) :=
  tensor_make_validation ℚ ["i", "j"] [Edge.mk [((0 : ℤ), 2)] false, Edge.mk [((0 : ℤ), 3)] false]

/-- Witness for `to_scalar_conversion_spec` on a two-element complex
tensor. -/
theorem to_scalar_conversion_spec_witness :
    complexExampleTensor.toReal.names = complexExampleTensor.names ∧
    complexExampleTensor.toReal.core.edges = complexExampleTensor.core.edges ∧
    complexExampleTensor.toReal.core.storage
      = complexExampleTensor.core.storage.map (fun z => z.1) ∧
    (∀ (w : World ℤ (ℚ × ℚ)) (h : Handle ℤ), toSameW w h = (w, h)) :=
  to_scalar_conversion_spec complexExampleTensor (by decide)

end TAT
